import Mathlib

set_option maxHeartbeats 1000000

/-!
Verification of the Pioneer browser-chrome specification.

Part 1 models the Tab Session Manager (TabSessionStore, SuggestionRanker,
BookmarkStore/HistoryLog, URL normalization).  The repository snapshot ships
only the screenshot-test tooling and build config, so these components are
modelled from the specification text; each such definition carries a doc
comment starting with `Modelled from the spec:`.

Part 2 embeds the screenshot-test script (`scripts/screenshot-test.ts`),
which is present in the source tree.
-/

universe u

/-- Modelled from the spec: §3 Tab record (id, title, url, canGoBack,
canGoForward, isLoading, favicon, isPinned) owned by TabSessionStore. -/
structure Tab where
  id : String
  title : String
  url : String
  canGoBack : Bool
  canGoForward : Bool
  isLoading : Bool
  favicon : Option String
  isPinned : Bool
  deriving DecidableEq

/-- Modelled from the spec: §6 HostBridge tab payload, as returned by the
host `createTab` call and carried by `tabUpdated` messages: it has no
`isPinned` field. -/
structure HostTab where
  id : String
  title : String
  url : String
  canGoBack : Bool
  canGoForward : Bool
  isLoading : Bool
  favicon : Option String
  deriving DecidableEq

/-- Modelled from the spec: §4.1 TabSessionStore state — the tab set (a map
keyed by tab id, here an id-unique list), the session order sequence, and
the active selection. -/
structure TabSessionStore where
  tabs : List Tab
  sessionOrder : List String
  activeTabId : Option String
  deriving DecidableEq

/-- The initial empty store: no tabs, empty order, no active tab. -/
def initStore : TabSessionStore := ⟨[], [], none⟩

/-- Map lookup over the id-keyed tab list. -/
def lookupTab (tabs : List Tab) (a : String) : Option Tab :=
  tabs.find? (fun t => t.id = a)

/-- Whether the store holds a tab with the given id. -/
def hasTab (s : TabSessionStore) (a : String) : Bool :=
  (lookupTab s.tabs a).isSome

/-- The tab stored under the given id, if any. -/
def findTab (s : TabSessionStore) (a : String) : Option Tab :=
  lookupTab s.tabs a

/-- Pin state of the tab stored under an id (false when absent). -/
def isPinnedId (tabs : List Tab) (a : String) : Bool :=
  match lookupTab tabs a with
  | some t => t.isPinned
  | none => false

/-- The keys of the tab set, in insertion order. -/
def tabKeys (s : TabSessionStore) : List String := s.tabs.map Tab.id

/-- Count of list elements satisfying a Boolean predicate. -/
def countIf {α : Type u} (f : α → Bool) : List α → Nat
  | [] => 0
  | a :: t => (if f a then 1 else 0) + countIf f t

/-- Insert an element at a position (dropping it when the position is past
the end of the list). -/
def insertAt {α : Type u} : Nat → α → List α → List α
  | 0, x, l => x :: l
  | _ + 1, _, [] => []
  | n + 1, x, b :: t => b :: insertAt n x t

/-- Remove the first occurrence of an id from the order sequence. -/
def removeId : List String → String → List String
  | [], _ => []
  | b :: t, a => if b = a then t else b :: removeId t a

/-- Modelled from the spec: a host-created tab enters the store unpinned
(§4.1 — "unpinned tabs are never pinned by default"). -/
def HostTab.toTab (ht : HostTab) : Tab :=
  ⟨ht.id, ht.title, ht.url, ht.canGoBack, ht.canGoForward, ht.isLoading, ht.favicon, false⟩

/-- Modelled from the spec: §4.1 `createTab` success path — insert the
host-returned tab into the set, append its id to the session order, make it
active.  The failure path mutates nothing, so it contributes no transition. -/
def createTab (s : TabSessionStore) (ht : HostTab) : TabSessionStore :=
  ⟨s.tabs ++ [ht.toTab], s.sessionOrder ++ [ht.id], some ht.id⟩

/-- Modelled from the spec: §4.1 `closeTab` — no-op when the tab does not
exist or is pinned; otherwise remove the tab and its order entry, and when
it was active select the tab occupying the same order position after the
removal, or the new last tab when that position no longer exists, or none
when the set became empty. -/
def closeTab (s : TabSessionStore) (id : String) : TabSessionStore :=
  match findTab s id with
  | none => s
  | some t =>
    if t.isPinned then s
    else
      let newOrder := removeId s.sessionOrder id
      let i := s.sessionOrder.indexOf id
      ⟨s.tabs.filter (fun u => u.id ≠ id),
       newOrder,
       if s.activeTabId = some id then
         if newOrder = [] then none
         else some (newOrder.getD (min i (newOrder.length - 1)) "")
       else s.activeTabId⟩

/-- Modelled from the spec: §4.1 `switchTo` — no-op on an unknown id (§7
taxonomy (b)); otherwise set the active selection. -/
def switchTo (s : TabSessionStore) (id : String) : TabSessionStore :=
  if hasTab s id then ⟨s.tabs, s.sessionOrder, some id⟩ else s

/-- Modelled from the spec: §4.1 `updateFromHost` reconciliation of a host
update into the matching tab: title, url, loading, canGoBack, canGoForward
and favicon are taken from the payload; id and isPinned are kept. -/
def mergeTab (t : Tab) (ht : HostTab) : Tab :=
  ⟨t.id, ht.title, ht.url, ht.canGoBack, ht.canGoForward, ht.isLoading, ht.favicon, t.isPinned⟩

/-- Modelled from the spec: §4.1 `updateFromHost` — reconcile the payload
into the matching tab when the id is known; when the id is unknown, "treats
it as an implicit creation with pin = false", read as performing the
creation steps of `createTab` (insert the tab unpinned, append its id to
the order, make it active). -/
def updateFromHost (s : TabSessionStore) (ht : HostTab) : TabSessionStore :=
  if hasTab s ht.id then
    ⟨s.tabs.map (fun t => if t.id = ht.id then mergeTab t ht else t),
     s.sessionOrder, s.activeTabId⟩
  else createTab s ht

/-- Flip the pin flag of a tab. -/
def flipPin (t : Tab) : Tab :=
  ⟨t.id, t.title, t.url, t.canGoBack, t.canGoForward, t.isLoading, t.favicon, !t.isPinned⟩

/-- Modelled from the spec: §4.1 `togglePin` — flip `isPinned` and re-thread
the tab to the boundary of the pinned prefix (end of the pinned block when
now pinned, start of the unpinned block when now unpinned: both are the
position right after the pinned tabs among the remaining order), preserving
the relative order of all other tabs.  Unknown id is a no-op (§7 (b)). -/
def togglePin (s : TabSessionStore) (id : String) : TabSessionStore :=
  match findTab s id with
  | none => s
  | some _ =>
    let newTabs := s.tabs.map (fun t => if t.id = id then flipPin t else t)
    let rest := removeId s.sessionOrder id
    let k := countIf (fun a => isPinnedId newTabs a) rest
    ⟨newTabs, insertAt k id rest, s.activeTabId⟩

/-- Length of the pinned prefix of the session order (the pin boundary). -/
def pinBoundary (s : TabSessionStore) : Nat :=
  (s.sessionOrder.takeWhile (fun a => isPinnedId s.tabs a)).length

/-- Modelled from the spec: §4.1 `reorder` — no-op on an unknown id; no-op
(silently, §7 (c)) when the target index would carry the tab across the pin
boundary; otherwise move the id to the target index within its own pin
partition, shifting intervening entries. -/
def reorder (s : TabSessionStore) (id : String) (target : Nat) : TabSessionStore :=
  match findTab s id with
  | none => s
  | some t =>
    let p := pinBoundary s
    let moved : TabSessionStore :=
      ⟨s.tabs, insertAt target id (removeId s.sessionOrder id), s.activeTabId⟩
    if t.isPinned then
      if target < p then moved else s
    else
      if p ≤ target ∧ target < s.sessionOrder.length then moved else s

/-- Modelled from the spec: the operations of §4.1 as a transition relation.
`createTab` transitions carry the §3 freshness guarantee that HostBridge
never reuses an id already present in the store. -/
inductive Step : TabSessionStore → TabSessionStore → Prop where
  | create (s : TabSessionStore) (ht : HostTab) (hf : hasTab s ht.id = false) :
      Step s (createTab s ht)
  | close (s : TabSessionStore) (id : String) : Step s (closeTab s id)
  | switch (s : TabSessionStore) (id : String) : Step s (switchTo s id)
  | update (s : TabSessionStore) (ht : HostTab) : Step s (updateFromHost s ht)
  | toggle (s : TabSessionStore) (id : String) : Step s (togglePin s id)
  | move (s : TabSessionStore) (id : String) (n : Nat) : Step s (reorder s id n)

/-- States reachable from the initial empty store by any sequence of
TabSessionStore operations. -/
inductive Reachable : TabSessionStore → Prop where
  | init : Reachable initStore
  | step {s s' : TabSessionStore} : Reachable s → Step s s' → Reachable s'

/-- A list is sorted for the pin flag: no element with a false flag is
followed by one with a true flag (the true flags form a prefix). -/
def PinSorted {α : Type u} (f : α → Bool) (l : List α) : Prop :=
  l.Pairwise (fun a b => f b = true → f a = true)

/-- The pinned tabs occupy a contiguous prefix of the session order. -/
def PinContiguous (s : TabSessionStore) : Prop :=
  PinSorted (fun a => isPinnedId s.tabs a) s.sessionOrder

/-- The active selection is none exactly on the empty tab set and otherwise
names a tab present in the set. -/
def ActiveOk (s : TabSessionStore) : Prop :=
  (s.activeTabId = none ↔ s.tabs = []) ∧
  ∀ a, s.activeTabId = some a → hasTab s a = true

/-- The full session invariant: unique tab keys, the order a permutation of
the keys, pin contiguity, and a valid active selection. -/
def StoreInv (s : TabSessionStore) : Prop :=
  (tabKeys s).Nodup ∧ s.sessionOrder.Perm (tabKeys s) ∧ PinContiguous s ∧ ActiveOk s

/-- Modelled from the spec: §3 Bookmark record kept by BookmarkStore. -/
structure Bookmark where
  id : String
  title : String
  url : String
  createdAt : Nat
  deriving DecidableEq

/-- Modelled from the spec: §3 HistoryEntry record kept by HistoryLog. -/
structure HistoryEntry where
  title : String
  url : String
  timestamp : Nat
  deriving DecidableEq

/-- A ranked autocomplete candidate with its §4.4 score. -/
structure Suggestion where
  title : String
  url : String
  score : Rat
  deriving DecidableEq

/-- Whether `needle` occurs as a contiguous run inside `hay`. -/
def subOf (needle : List Char) : List Char → Bool
  | [] => needle.isEmpty
  | c :: t => needle.isPrefixOf (c :: t) || subOf needle t

/-- Modelled from the spec: §4.4 case-insensitive substring match. -/
def lcContains (hay q : String) : Bool :=
  subOf (q.toList.map Char.toLower) (hay.toList.map Char.toLower)

/-- Modelled from the spec: §4.4 fixed maximum number of suggestions. -/
def suggestionLimit : Nat := 8

/-- Modelled from the spec: §4.4 bookmark candidates — case-insensitive
match against title and URL; bookmark+title-match scores 2, bookmark with a
URL-only match scores 1. -/
def bookmarkSuggestions (q : String) (bms : List Bookmark) : List Suggestion :=
  (bms.filter (fun b => lcContains b.title q || lcContains b.url q)).map
    (fun b => ⟨b.title, b.url, if lcContains b.title q then 2 else 1⟩)

/-- The rational 1/2, built in lowest terms so that it computes. -/
def halfScore : Rat := ⟨1, 2, by norm_num, by norm_num⟩

/-- The rational 3/2, built in lowest terms so that it computes. -/
def threeHalfScore : Rat := ⟨3, 2, by norm_num, by norm_num⟩

/-- Modelled from the spec: §4.4 history candidates — history+title-match
scores 1.5, history with a URL-only match scores 0.5; a URL already
represented by a bookmark match is not duplicated from history. -/
def historySuggestions (q : String) (hist : List HistoryEntry)
    (bmUrls : List String) : List Suggestion :=
  ((hist.filter (fun e => lcContains e.title q || lcContains e.url q)).filter
    (fun e => ¬ (e.url ∈ bmUrls))).map
    (fun e => ⟨e.title, e.url, if lcContains e.title q then threeHalfScore else halfScore⟩)

/-- Stable descending insertion: the candidate moves past only strictly
greater scores, so it lands before every equal-scored candidate that came
later in the input. -/
def insertDesc (x : Suggestion) : List Suggestion → List Suggestion
  | [] => [x]
  | y :: t => if x.score < y.score then y :: insertDesc x t else x :: y :: t

/-- Modelled from the spec: §4.4 stable sort by descending score — ties
keep source iteration order, because `insertDesc` never crosses an
equal-scored candidate. -/
def sortDesc : List Suggestion → List Suggestion
  | [] => []
  | x :: t => insertDesc x (sortDesc t)

/-- Modelled from the spec: §4.4 SuggestionRanker — empty query gives the
empty result; otherwise bookmark candidates (insertion order) then history
candidates (bookmark-matched URLs deduplicated), stably sorted by
descending score, truncated to the suggestion limit. -/
def rankSuggestions (q : String) (bms : List Bookmark)
    (hist : List HistoryEntry) : List Suggestion :=
  if q = "" then []
  else
    let matchedBms := bms.filter (fun b => lcContains b.title q || lcContains b.url q)
    let bs := bookmarkSuggestions q bms
    let hs := historySuggestions q hist (matchedBms.map Bookmark.url)
    (sortDesc (bs ++ hs)).take suggestionLimit

/-- Modelled from the spec: §3 maximum retained history count (the spec
fixes no number; any positive cap exhibits the §3 behaviour). -/
def maxHistoryEntries : Nat := 100

/-- Modelled from the spec: §3/§4.5 HistoryLog state, most-recent-first. -/
structure HistoryLog where
  entries : List HistoryEntry
  deriving DecidableEq

/-- Modelled from the spec: §4.5 `record(title, url)` — a navigation to the
same URL as the most recent entry is not re-recorded; otherwise the entry
is prepended and the log truncated to the retained cap (oldest evicted). -/
def HistoryLog.record (log : HistoryLog) (title url : String) (ts : Nat) : HistoryLog :=
  match log.entries with
  | e :: _ => if e.url = url then log
              else ⟨(⟨title, url, ts⟩ :: log.entries).take maxHistoryEntries⟩
  | [] => ⟨[⟨title, url, ts⟩]⟩

/-- Whether the input already carries an explicit scheme. -/
def startsWithHttp (s : String) : Bool :=
  "http://".toList.isPrefixOf s.toList || "https://".toList.isPrefixOf s.toList

/-- Split a character sequence at every dot. -/
def splitOnDot : List Char → List (List Char)
  | [] => [[]]
  | c :: t =>
    if c = '.' then [] :: splitOnDot t
    else
      match splitOnDot t with
      | h :: r => (c :: h) :: r
      | [] => [[c]]

/-- Modelled from the spec: §6 dotted-quad IPv4 form — four dot-separated
nonempty all-digit labels. -/
def isIPv4 (s : String) : Bool :=
  let parts := splitOnDot s.toList
  parts.length = 4 && parts.all (fun p => ¬(p = []) && p.all Char.isDigit)

/-- Modelled from the spec: §6 domain-name pattern `label(.label)+` with no
spaces — at least two dot-separated nonempty labels, none containing a
space. -/
def isDomainLike (s : String) : Bool :=
  let parts := splitOnDot s.toList
  2 ≤ parts.length && parts.all (fun p => ¬(p = []) && !(p.contains ' '))

/-- UTF-8 encoding of one character as byte values. -/
def utf8Bytes (c : Char) : List Nat :=
  let n := c.toNat
  if n < 128 then [n]
  else if n < 2048 then [192 + n / 64, 128 + n % 64]
  else if n < 65536 then [224 + n / 4096, 128 + (n / 64) % 64, 128 + n % 64]
  else [240 + n / 262144, 128 + (n / 4096) % 64, 128 + (n / 64) % 64, 128 + n % 64]

/-- Characters left unescaped by the URL-encoder (the encodeURIComponent
unreserved set: alphanumerics and - _ . ! ~ * apostrophe paren). -/
def isUnreservedChar (c : Char) : Bool :=
  c.isAlphanum || c = '-' || c = '_' || c = '.' || c = '!' || c = '~' ||
    c = '*' || c.toNat = 39 || c = '(' || c = ')'

/-- Hexadecimal digit character for a value below 16. -/
def hexChar (n : Nat) : Char :=
  if n < 10 then Char.ofNat (48 + n) else Char.ofNat (55 + n)

/-- Percent-encode a single byte value. -/
def percentByte (b : Nat) : List Char :=
  ['%', hexChar (b / 16), hexChar (b % 16)]

/-- URL-encode a string: unreserved characters pass through, all others are
percent-encoded byte by byte of their UTF-8 form. -/
def urlEncode (s : String) : String :=
  String.mk (s.toList.flatMap (fun c =>
    if isUnreservedChar c then [c]
    else (utf8Bytes c).flatMap percentByte))

/-- Modelled from the spec: §6 the search-engine query URL built from any
input that is not recognized as an address (the spec names no engine; a
fixed query endpoint stands in for it). -/
def searchQueryUrl (s : String) : String :=
  "https://www.google.com/search?q=" ++ urlEncode s

/-- Modelled from the spec: §6 URL normalization contract — explicit
`http://`/`https://` passes through unchanged; `localhost` or a dotted-quad
IPv4 form is prefixed `http://`; a domain-name pattern is prefixed
`https://`; anything else becomes a search-engine query URL.  The
`localhost`/IPv4 rule is tested before the domain rule: a dotted quad also
matches `label(.label)+`, and the contract requires it to get `http://`. -/
def normalizeUrl (input : String) : String :=
  if startsWithHttp input then input
  else if input = "localhost" || isIPv4 input then "http://" ++ input
  else if isDomainLike input then "https://" ++ input
  else searchQueryUrl input

/-- One finding reported by the Gemini analysis
(`scripts/screenshot-test.ts`, interface GeminiAnalysis); at runtime the
severity is whatever string the parsed JSON carries. -/
structure GeminiAnalysis where
  severity : String
  category : String
  description : String
  suggestion : String
  deriving DecidableEq

/-- A screenshot test case (`scripts/screenshot-test.ts`, interface
ScreenshotTest). -/
structure ScreenshotTest where
  name : String
  description : String
  instructions : String
  deriving DecidableEq

/-- One test outcome (`scripts/screenshot-test.ts`, interface TestResult). -/
structure TestResult where
  test : ScreenshotTest
  screenshotPath : String
  timestamp : Nat
  analyses : List GeminiAnalysis
  deriving DecidableEq

/-- The severity tally of `generateReport` (lines 179–191): each analysis
bumps the critical, major or minor counter on an exact severity match and
the info counter otherwise. -/
def bumpCounts (acc : Nat × Nat × Nat × Nat) (a : GeminiAnalysis) : Nat × Nat × Nat × Nat :=
  if a.severity = "critical" then (acc.1 + 1, acc.2.1, acc.2.2.1, acc.2.2.2)
  else if a.severity = "major" then (acc.1, acc.2.1 + 1, acc.2.2.1, acc.2.2.2)
  else if a.severity = "minor" then (acc.1, acc.2.1, acc.2.2.1 + 1, acc.2.2.2)
  else (acc.1, acc.2.1, acc.2.2.1, acc.2.2.2 + 1)

/-- The (critical, major, minor, info) counters accumulated by
`generateReport` over all results (the HTML assembly around them is layout
only and is not modelled). -/
def severityCounts (results : List TestResult) : Nat × Nat × Nat × Nat :=
  results.foldl (fun acc r => r.analyses.foldl bumpCounts acc) (0, 0, 0, 0)

/-- The "Total issues found" figure of the report (line 193):
`criticalCount + majorCount + minorCount + infoCount`. -/
def totalIssues (results : List TestResult) : Nat :=
  (severityCounts results).1 + (severityCounts results).2.1 +
    (severityCounts results).2.2.1 + (severityCounts results).2.2.2

/-- Severity strings that fall into the catch-all info bucket. -/
def isInfoSeverity (a : GeminiAnalysis) : Bool :=
  ¬(a.severity = "critical" ∨ a.severity = "major" ∨ a.severity = "minor")

/-- Outcome of the `fetch` call in `analyzeWithGemini`: the call may throw,
return a non-OK response, or return OK with the optional candidate text
extracted from the response JSON. -/
inductive FetchOutcome where
  | throws
  | notOk (status : Nat)
  | ok (text : Option String)
  deriving DecidableEq

/-- Environment of one `analyzeWithGemini` call: whether the screenshot
file exists, what the fetch does, and what `JSON.parse` yields on a given
string (it may throw). -/
structure GeminiEnv where
  fileExists : Bool
  fetch : FetchOutcome
  parse : String → Except String (List GeminiAnalysis)

/-- The regex match `\[[\s\S]*\]` of line 166: greedily spans from the
first `[` to the last `]` of the text, when both exist in that order. -/
def jsonArrayMatch (text : String) : Option String :=
  let cs := text.toList
  match cs.findIdx? (fun c => c = '['), (cs.reverse.findIdx? (fun c => c = ']')) with
  | some i, some rj =>
    let j := cs.length - 1 - rj
    if i ≤ j then some (String.mk ((cs.drop i).take (j - i + 1))) else none
  | _, _ => none

/-- The try-block of `analyzeWithGemini` (lines 129–174): a thrown fetch
surfaces as an error; a non-OK response returns the empty list early; an OK
response defaults missing text to "[]", extracts the JSON-array match and
parses it (no match returns the empty list; a parse throw surfaces as an
error). -/
def analyzeTry (env : GeminiEnv) : Except String (List GeminiAnalysis) :=
  match env.fetch with
  | .throws => .error "fetch failed"
  | .notOk _ => .ok []
  | .ok textOpt =>
    let text := textOpt.getD "[]"
    match jsonArrayMatch text with
    | some m => env.parse m
    | none => .ok []

/-- `analyzeWithGemini` (lines 102–175): a missing screenshot file returns
the empty list before the try-block; any error of the try-block is caught
and becomes the empty list. -/
def analyzeWithGemini (env : GeminiEnv) : List GeminiAnalysis :=
  if env.fileExists = false then []
  else
    match analyzeTry env with
    | .ok l => l
    | .error _ => []

/-- Host payload for a demo tab with the given id. -/
def demoHost (n : String) : HostTab := ⟨n, n, "", false, false, false, none⟩

/-- Demo state: tabs A, B, C created in order (§8 scenario). -/
def demoABC : TabSessionStore :=
  createTab (createTab (createTab initStore (demoHost "A")) (demoHost "B")) (demoHost "C")

/-- The tab stored for B in the demo state. -/
def demoTabB : Tab := ⟨"B", "B", "", false, false, false, none, false⟩

/-- Demo state with A pinned: order [A, B, C], pin boundary 1. -/
def demoPinA : TabSessionStore := togglePin demoABC "A"

/-- The pinned tab stored for A in `demoPinA`. -/
def demoTabA : Tab := ⟨"A", "A", "", false, false, false, none, true⟩

/-- Bookmark of the §8 suggestion scenario. -/
def demoBookmark : Bookmark := ⟨"bm1", "Electrobun", "https://electrobun.dev", 0⟩

/-- The pinned block of the session order once `id` is removed: the run of
still-pinned tabs at the front. -/
def pinBlock (s : TabSessionStore) (id : String) : List String :=
  (removeId s.sessionOrder id).takeWhile (fun a => isPinnedId s.tabs a)

/-- The unpinned block of the session order once `id` is removed: everything
after the pinned run. -/
def unpinBlock (s : TabSessionStore) (id : String) : List String :=
  (removeId s.sessionOrder id).dropWhile (fun a => isPinnedId s.tabs a)

/-! ### List lemmas for the session-order development -/

theorem countIf_le_length {α : Type u} (f : α → Bool) (l : List α) :
    countIf f l ≤ l.length := by
  induction l with
  | nil => simp [countIf]
  | cons a t ih =>
    simp only [countIf, List.length_cons]
    split <;> omega


theorem perm_countIf {α : Type u} (f : α → Bool) {l₁ l₂ : List α} (h : l₁.Perm l₂) :
    countIf f l₁ = countIf f l₂ := by
  induction h with
  | nil => rfl
  | cons x _ ih => simp [countIf, ih]
  | swap x y l => cases hx : f x <;> cases hy : f y <;> simp [countIf, hx, hy]
  | trans _ _ ih₁ ih₂ => exact ih₁.trans ih₂

theorem countIf_congr {α : Type u} {f g : α → Bool} {l : List α}
    (h : ∀ a ∈ l, f a = g a) : countIf f l = countIf g l := by
  induction l with
  | nil => rfl
  | cons a t ih =>
    simp only [countIf, h a (List.mem_cons_self a t)]
    rw [ih (fun b hb => h b (List.mem_cons_of_mem a hb))]

theorem countIf_zero_mem {α : Type u} {f : α → Bool} {l : List α}
    (h : countIf f l = 0) : ∀ b ∈ l, f b = false := by
  induction l with
  | nil => intro b hb; cases hb
  | cons a t ih =>
    intro b hb
    simp only [countIf] at h
    rcases List.mem_cons.mp hb with rfl | hbt
    · cases hfa : f b
      · rfl
      · simp [hfa] at h
    · exact ih (by omega) b hbt

theorem countIf_eq_zero {α : Type u} {f : α → Bool} {l : List α}
    (h : ∀ b ∈ l, f b = false) : countIf f l = 0 := by
  induction l with
  | nil => rfl
  | cons a t ih =>
    simp [countIf, h a (List.mem_cons_self a t)]
    exact ih (fun b hb => h b (List.mem_cons_of_mem a hb))

theorem perm_insertAt {α : Type u} (x : α) :
    ∀ (n : Nat) (l : List α), n ≤ l.length → (insertAt n x l).Perm (x :: l)
  | 0, l, _ => by simp [insertAt]
  | n + 1, [], h => by simp at h
  | n + 1, b :: t, h => by
    simp only [insertAt]
    exact ((perm_insertAt x n t (by simpa using h)).cons b).trans (List.Perm.swap x b t)

theorem mem_insertAt {α : Type u} {c x : α} :
    ∀ {n : Nat} {l : List α}, c ∈ insertAt n x l → c = x ∨ c ∈ l := by
  intro n
  induction n with
  | zero =>
    intro l h
    rcases List.mem_cons.mp h with rfl | hl
    · exact Or.inl rfl
    · exact Or.inr hl
  | succ n ih =>
    intro l h
    cases l with
    | nil => cases h
    | cons b t =>
      rcases List.mem_cons.mp h with rfl | ht
      · exact Or.inr (List.mem_cons_self _ _)
      · rcases ih ht with h1 | h2
        · exact Or.inl h1
        · exact Or.inr (List.mem_cons_of_mem b h2)

theorem insertAt_append {α : Type u} (x : α) (l₁ l₂ : List α) :
    insertAt l₁.length x (l₁ ++ l₂) = l₁ ++ x :: l₂ := by
  induction l₁ with
  | nil => rfl
  | cons b t ih => simp [insertAt, ih]

theorem perm_cons_removeId {l : List String} {a : String} (h : a ∈ l) :
    l.Perm (a :: removeId l a) := by
  induction l with
  | nil => cases h
  | cons b t ih =>
    by_cases hb : b = a
    · subst hb; simp [removeId]
    · have ht : a ∈ t := by
        rcases List.mem_cons.mp h with rfl | h2
        · exact absurd rfl hb
        · exact h2
      simp only [removeId, if_neg hb]
      exact ((ih ht).cons b).trans (List.Perm.swap a b _)

theorem length_removeId {l : List String} {a : String} (h : a ∈ l) :
    (removeId l a).length + 1 = l.length := by
  have := (perm_cons_removeId h).length_eq
  simp only [List.length_cons] at this
  omega

theorem removeId_sublist (l : List String) (a : String) : (removeId l a).Sublist l := by
  induction l with
  | nil => simp [removeId]
  | cons b t ih =>
    by_cases hb : b = a
    · simp only [removeId, if_pos hb]
      exact (List.Sublist.refl t).cons b
    · simp only [removeId, if_neg hb]
      exact ih.cons₂ b

theorem mem_removeId {l : List String} {a b : String} (h : b ∈ removeId l a) : b ∈ l :=
  (removeId_sublist l a).subset h

theorem not_mem_removeId {l : List String} {a : String} (h : a ∈ l) (hn : l.Nodup) :
    a ∉ removeId l a := by
  have h2 := (perm_cons_removeId h).nodup hn
  exact (List.nodup_cons.mp h2).1

theorem removeId_eq_filter {l : List String} {a : String} (hn : l.Nodup) :
    removeId l a = l.filter (fun x => x ≠ a) := by
  induction l with
  | nil => rfl
  | cons b t ih =>
    rcases List.nodup_cons.mp hn with ⟨hb, ht⟩
    by_cases hba : b = a
    · subst hba
      simp only [removeId, if_pos rfl]
      rw [List.filter_cons_of_neg (by simp)]
      symm
      apply List.filter_eq_self.mpr
      intro x hx
      simp only [ne_eq, decide_eq_true_eq]
      exact fun hxa => hb (hxa ▸ hx)
    · simp only [removeId, if_neg hba]
      rw [List.filter_cons_of_pos (by simp [hba]), ih ht]

/-! ### Pin-sortedness lemmas -/

theorem pinSorted_tail {α : Type u} {f : α → Bool} {a : α} {l : List α}
    (h : PinSorted f (a :: l)) : PinSorted f l :=
  (List.pairwise_cons.mp h).2

theorem pinSorted_cons_false {α : Type u} {f : α → Bool} {a : α} {l : List α}
    (h : PinSorted f (a :: l)) (ha : f a = false) : ∀ b ∈ l, f b = false := by
  intro b hb
  cases hfb : f b
  · rfl
  · have := (List.pairwise_cons.mp h).1 b hb hfb
    simp [ha] at this

theorem pinSorted_insertAt_true {α : Type u} {f : α → Bool} {x : α} (hx : f x = true) :
    ∀ {n : Nat} {l : List α}, PinSorted f l → n ≤ countIf f l →
      PinSorted f (insertAt n x l) := by
  intro n
  induction n with
  | zero =>
    intro l h _
    simp only [insertAt]
    exact List.pairwise_cons.mpr ⟨fun b _ _ => hx, h⟩
  | succ n ih =>
    intro l h hn
    cases l with
    | nil => simp [countIf] at hn
    | cons a t =>
      cases hfa : f a with
      | false =>
        have := countIf_eq_zero (pinSorted_cons_false h hfa)
        simp [countIf, hfa, this] at hn
      | true =>
        simp [countIf, hfa] at hn
        simp only [insertAt]
        refine List.pairwise_cons.mpr ⟨fun b _ _ => hfa, ?_⟩
        exact ih (pinSorted_tail h) (by omega)

theorem pinSorted_insertAt_false {α : Type u} {f : α → Bool} {x : α} (hx : f x = false) :
    ∀ {n : Nat} {l : List α}, PinSorted f l → countIf f l ≤ n →
      PinSorted f (insertAt n x l) := by
  intro n
  induction n with
  | zero =>
    intro l h hn
    simp only [insertAt]
    refine List.pairwise_cons.mpr ⟨?_, h⟩
    intro b hb hfb
    have := countIf_zero_mem (Nat.le_zero.mp hn) b hb
    rw [this] at hfb
    cases hfb
  | succ n ih =>
    intro l h hn
    cases l with
    | nil => exact List.Pairwise.nil
    | cons a t =>
      cases hfa : f a with
      | true =>
        simp [countIf, hfa] at hn
        simp only [insertAt]
        refine List.pairwise_cons.mpr ⟨fun b _ _ => hfa, ?_⟩
        exact ih (pinSorted_tail h) (by omega)
      | false =>
        have hall := pinSorted_cons_false h hfa
        simp only [insertAt]
        refine List.pairwise_cons.mpr ⟨?_, ?_⟩
        · intro b hb hfb
          rcases mem_insertAt hb with rfl | hbt
          · rw [hx] at hfb; cases hfb
          · rw [hall b hbt] at hfb; cases hfb
        · exact ih (pinSorted_tail h) (by simp [countIf_eq_zero hall])

theorem pinSorted_takeWhile_length {α : Type u} {f : α → Bool} {l : List α}
    (h : PinSorted f l) : (l.takeWhile f).length = countIf f l := by
  induction l with
  | nil => rfl
  | cons a t ih =>
    cases hfa : f a with
    | true =>
      simp [List.takeWhile_cons, hfa, countIf, ih (pinSorted_tail h)]
      omega
    | false =>
      simp [List.takeWhile_cons, hfa, countIf,
        countIf_eq_zero (pinSorted_cons_false h hfa)]

theorem pinSorted_dropWhile_false {α : Type u} {f : α → Bool} {l : List α}
    (h : PinSorted f l) : ∀ b ∈ l.dropWhile f, f b = false := by
  induction l with
  | nil => intro b hb; simp at hb
  | cons a t ih =>
    cases hfa : f a with
    | true =>
      simp only [List.dropWhile_cons, hfa, if_pos rfl]
      exact ih (pinSorted_tail h)
    | false =>
      simp only [List.dropWhile_cons, hfa]
      intro b hb
      rcases List.mem_cons.mp (by simpa using hb) with rfl | hbt
      · exact hfa
      · exact pinSorted_cons_false h hfa b hbt

theorem pinSorted_mem_takeWhile {α : Type u} {f : α → Bool} {l : List α} :
    ∀ b ∈ l.takeWhile f, f b = true := by
  intro b hb
  exact List.mem_takeWhile_imp hb

theorem pinSorted_filter_decomp {α : Type u} {f : α → Bool} {l : List α}
    (h : PinSorted f l) : l = l.filter f ++ l.filter (fun a => !(f a)) := by
  induction l with
  | nil => rfl
  | cons a t ih =>
    cases hfa : f a with
    | true =>
      rw [List.filter_cons_of_pos hfa, List.filter_cons_of_neg (by simp [hfa])]
      simpa using ih (pinSorted_tail h)
    | false =>
      have hall := pinSorted_cons_false h hfa
      rw [List.filter_cons_of_neg (by simp [hfa]), List.filter_cons_of_pos (by simp [hfa])]
      rw [List.filter_eq_nil_iff.mpr (by intro b hb; simp [hall b hb]),
        List.filter_eq_self.mpr (by intro b hb; simp [hall b hb])]
      rfl

theorem pinSorted_sublist {α : Type u} {f : α → Bool} {l₁ l₂ : List α}
    (hs : l₁.Sublist l₂) (h : PinSorted f l₂) : PinSorted f l₁ :=
  h.sublist hs

theorem pinSorted_congr {α : Type u} {f g : α → Bool} {l : List α}
    (h : PinSorted f l) (hfg : ∀ a ∈ l, f a = g a) : PinSorted g l := by
  refine List.Pairwise.imp_of_mem ?_ h
  intro a b ha hb hab hgb
  rw [← hfg a ha]
  exact hab (by rw [hfg b hb]; exact hgb)

/-! ### Lookup lemmas for the id-keyed tab list -/

theorem lookupTab_append_of_some {l₁ l₂ : List Tab} {a : String} {t : Tab}
    (h : lookupTab l₁ a = some t) : lookupTab (l₁ ++ l₂) a = some t := by
  induction l₁ with
  | nil => simp [lookupTab, List.find?] at h
  | cons u r ih =>
    simp only [lookupTab, List.find?] at h ⊢
    cases hu : decide (u.id = a) with
    | true => rw [hu] at h; simpa [hu] using h
    | false =>
      rw [hu] at h
      simp only [hu]
      exact ih h

theorem lookupTab_append_of_none {l₁ l₂ : List Tab} {a : String}
    (h : lookupTab l₁ a = none) : lookupTab (l₁ ++ l₂) a = lookupTab l₂ a := by
  induction l₁ with
  | nil => rfl
  | cons u r ih =>
    simp only [lookupTab, List.find?] at h ⊢
    cases hu : decide (u.id = a) with
    | true => rw [hu] at h; cases h
    | false =>
      rw [hu] at h
      simp only [hu]
      exact ih h

theorem lookupTab_map {g : Tab → Tab} (hg : ∀ t, (g t).id = t.id) (l : List Tab)
    (a : String) : lookupTab (l.map g) a = (lookupTab l a).map g := by
  induction l with
  | nil => rfl
  | cons u r ih =>
    simp only [lookupTab, List.map_cons, List.find?] at ih ⊢
    rw [hg u]
    cases hu : decide (u.id = a) with
    | true => simp
    | false => simpa using ih

theorem lookupTab_filter_ne {l : List Tab} {a b : String} (hab : a ≠ b) :
    lookupTab (l.filter (fun u => u.id ≠ b)) a = lookupTab l a := by
  induction l with
  | nil => rfl
  | cons u r ih =>
    by_cases hub : u.id = b
    · rw [List.filter_cons_of_neg (by simp [hub])]
      have hua : ¬(u.id = a) := by rw [hub]; exact fun h => hab h.symm
      simp only [lookupTab, List.find?] at ih ⊢
      simp only [decide_eq_false hua]
      exact ih
    · rw [List.filter_cons_of_pos (by simp [hub])]
      simp only [lookupTab, List.find?] at ih ⊢
      cases hu : decide (u.id = a) with
      | true => rfl
      | false => exact ih

theorem lookupTab_isSome_iff {l : List Tab} {a : String} :
    (lookupTab l a).isSome = true ↔ a ∈ l.map Tab.id := by
  induction l with
  | nil => simp [lookupTab, List.find?]
  | cons u r ih =>
    simp only [lookupTab, List.find?, List.map_cons, List.mem_cons] at ih ⊢
    cases hu : decide (u.id = a) with
    | true =>
      simp only [Option.isSome_some, true_iff]
      exact Or.inl (of_decide_eq_true hu).symm
    | false =>
      constructor
      · intro h
        exact Or.inr (ih.mp h)
      · intro h
        rcases h with h1 | h2
        · exact absurd h1.symm (of_decide_eq_false hu)
        · exact ih.mpr h2

theorem lookupTab_id {l : List Tab} {a : String} {t : Tab}
    (h : lookupTab l a = some t) : t.id = a := by
  have := List.find?_some h
  simpa using this

theorem lookupTab_none_not_mem {l : List Tab} {a : String}
    (h : lookupTab l a = none) : a ∉ l.map Tab.id := by
  intro hmem
  have := lookupTab_isSome_iff.mpr hmem
  rw [h] at this
  cases this

theorem keys_filter_ne (l : List Tab) (b : String) :
    (l.filter (fun u => u.id ≠ b)).map Tab.id = (l.map Tab.id).filter (fun x => x ≠ b) := by
  induction l with
  | nil => rfl
  | cons u r ih =>
    by_cases hub : u.id = b
    · rw [List.filter_cons_of_neg (by simp [hub]), List.map_cons,
        List.filter_cons_of_neg (by simp [hub]), ih]
    · rw [List.filter_cons_of_pos (by simp [hub]), List.map_cons, List.map_cons,
        List.filter_cons_of_pos (by simp [hub]), ih]

theorem keys_map_preserving {g : Tab → Tab} (hg : ∀ t, (g t).id = t.id) (l : List Tab) :
    (l.map g).map Tab.id = l.map Tab.id := by
  induction l with
  | nil => rfl
  | cons u r ih => simp only [List.map_cons, hg u, ih]

/-! ### Per-operation invariant preservation -/

theorem isPinnedId_congr {l₁ l₂ : List Tab} {a : String}
    (h : lookupTab l₁ a = lookupTab l₂ a) : isPinnedId l₁ a = isPinnedId l₂ a := by
  unfold isPinnedId
  rw [h]

theorem isPinnedId_of_lookup {l : List Tab} {a : String} {t : Tab}
    (h : lookupTab l a = some t) : isPinnedId l a = t.isPinned := by
  unfold isPinnedId
  rw [h]

theorem isPinnedId_of_none {l : List Tab} {a : String}
    (h : lookupTab l a = none) : isPinnedId l a = false := by
  unfold isPinnedId
  rw [h]

theorem lookup_some_of_mem {l : List Tab} {a : String} (h : a ∈ l.map Tab.id) :
    ∃ t, lookupTab l a = some t :=
  Option.isSome_iff_exists.mp (lookupTab_isSome_iff.mpr h)

theorem hasTab_of_none {s : TabSessionStore} {a : String}
    (hf : hasTab s a = false) : lookupTab s.tabs a = none := by
  unfold hasTab at hf
  cases hl : lookupTab s.tabs a
  · rfl
  · rw [hl] at hf
    cases hf

theorem storeInv_init : StoreInv initStore := by
  refine ⟨List.nodup_nil, List.Perm.refl _, List.Pairwise.nil, ?_, ?_⟩
  · simp [initStore]
  · intro a ha
    simp [initStore] at ha

theorem storeInv_createTab {s : TabSessionStore} {ht : HostTab} (h : StoreInv s)
    (hf : hasTab s ht.id = false) : StoreInv (createTab s ht) := by
  obtain ⟨hnd, hperm, hpin, hact⟩ := h
  have hnone : lookupTab s.tabs ht.id = none := hasTab_of_none hf
  have hnotmem : ht.id ∉ tabKeys s := lookupTab_none_not_mem hnone
  have hkeys : tabKeys (createTab s ht) = tabKeys s ++ [ht.id] := by
    simp [tabKeys, createTab, HostTab.toTab]
  have hsingle : lookupTab [ht.toTab] ht.id = some ht.toTab := by
    simp [lookupTab, List.find?, HostTab.toTab]
  have hlooknew : lookupTab (createTab s ht).tabs ht.id = some ht.toTab := by
    show lookupTab (s.tabs ++ [ht.toTab]) ht.id = some ht.toTab
    rw [lookupTab_append_of_none hnone, hsingle]
  have hpinnew : isPinnedId (createTab s ht).tabs ht.id = false := by
    rw [isPinnedId_of_lookup hlooknew]
    rfl
  have hold : ∀ a ∈ s.sessionOrder,
      isPinnedId s.tabs a = isPinnedId (createTab s ht).tabs a := by
    intro a ha
    have hmem : a ∈ tabKeys s := (hperm.mem_iff).mp ha
    rcases lookup_some_of_mem hmem with ⟨t, hlt⟩
    exact isPinnedId_congr (by rw [hlt]; exact (lookupTab_append_of_some hlt).symm)
  refine ⟨?_, ?_, ?_, ?_, ?_⟩
  · rw [hkeys]
    refine hnd.append (List.nodup_singleton _) ?_
    intro a hal har
    rcases List.mem_singleton.mp har with rfl
    exact hnotmem hal
  · rw [hkeys]
    exact hperm.append_right [ht.id]
  · show PinSorted (fun a => isPinnedId (createTab s ht).tabs a)
      (s.sessionOrder ++ [ht.id])
    refine List.pairwise_append.mpr ⟨?_, List.pairwise_singleton _ _, ?_⟩
    · exact pinSorted_congr hpin hold
    · intro a ha b hb hfb
      rcases List.mem_singleton.mp hb with rfl
      have hcontr : isPinnedId (createTab s ht).tabs ht.id = true := hfb
      rw [hpinnew] at hcontr
      cases hcontr
  · constructor
    · intro hcontr
      cases hcontr
    · intro hempty
      have : (s.tabs ++ [ht.toTab]) = [] := hempty
      simp at this
  · intro a ha
    have haeq : ht.id = a := by
      simpa [createTab] using ha
    subst haeq
    show (lookupTab (s.tabs ++ [ht.toTab]) ht.id).isSome = true
    rw [lookupTab_append_of_none hnone, hsingle]
    rfl

theorem storeInv_switchTo {s : TabSessionStore} (id : String) (h : StoreInv s) :
    StoreInv (switchTo s id) := by
  obtain ⟨hnd, hperm, hpin, hact⟩ := h
  unfold switchTo
  cases hh : hasTab s id with
  | false => simpa [hh] using ⟨hnd, hperm, hpin, hact⟩
  | true =>
    simp only [hh, if_pos rfl]
    refine ⟨hnd, hperm, hpin, ?_, ?_⟩
    · constructor
      · intro hcontr
        cases hcontr
      · intro hempty
        unfold hasTab at hh
        rw [show s.tabs = [] from hempty] at hh
        simp [lookupTab, List.find?] at hh
    · intro a ha
      have haeq : id = a := by simpa using ha
      subst haeq
      exact hh

theorem mergeTab_id_pin (t : Tab) (ht : HostTab) :
    (mergeTab t ht).id = t.id ∧ (mergeTab t ht).isPinned = t.isPinned :=
  ⟨rfl, rfl⟩

theorem storeInv_updateFromHost {s : TabSessionStore} (ht : HostTab) (h : StoreInv s) :
    StoreInv (updateFromHost s ht) := by
  unfold updateFromHost
  cases hh : hasTab s ht.id with
  | false =>
    rw [if_neg (by simp [hh])]
    exact storeInv_createTab h hh
  | true =>
    rw [if_pos (by simp [hh])]
    obtain ⟨hnd, hperm, hpin, hact⟩ := h
    have hgid : ∀ t : Tab, ((fun t : Tab => if t.id = ht.id then mergeTab t ht else t) t).id
        = t.id := by
      intro t
      by_cases h1 : t.id = ht.id <;> simp [h1, mergeTab]
    have hkeys : ((s.tabs.map (fun t => if t.id = ht.id then mergeTab t ht else t)).map Tab.id)
        = s.tabs.map Tab.id := keys_map_preserving hgid s.tabs
    have hpineq : ∀ a, isPinnedId (s.tabs.map (fun t => if t.id = ht.id then mergeTab t ht else t)) a
        = isPinnedId s.tabs a := by
      intro a
      rw [show isPinnedId (s.tabs.map (fun t => if t.id = ht.id then mergeTab t ht else t)) a
          = _ from rfl]
      cases hl : lookupTab s.tabs a with
      | none =>
        rw [isPinnedId_of_none (by rw [lookupTab_map hgid, hl]; rfl), isPinnedId_of_none hl]
      | some u =>
        rw [isPinnedId_of_lookup (by rw [lookupTab_map hgid, hl]; rfl), isPinnedId_of_lookup hl]
        by_cases h1 : u.id = ht.id <;> simp [h1, mergeTab]
    refine ⟨?_, ?_, ?_, ?_, ?_⟩
    · show ((s.tabs.map _).map Tab.id).Nodup
      rw [hkeys]
      exact hnd
    · show s.sessionOrder.Perm ((s.tabs.map _).map Tab.id)
      rw [hkeys]
      exact hperm
    · refine pinSorted_congr hpin ?_
      intro a _
      exact (hpineq a).symm
    · constructor
      · intro hnone
        have := hact.1.mp hnone
        rw [this]
        rfl
      · intro hempty
        apply hact.1.mpr
        have : s.tabs.map (fun t => if t.id = ht.id then mergeTab t ht else t) = [] := hempty
        cases hcase : s.tabs with
        | nil => rfl
        | cons u r => rw [hcase] at this; simp at this
    · intro a ha
      have h2 := hact.2 a ha
      show (lookupTab (s.tabs.map _) a).isSome = true
      rw [lookupTab_map hgid]
      unfold hasTab at h2
      cases hl : lookupTab s.tabs a with
      | none => rw [hl] at h2; cases h2
      | some u => rfl

theorem storeInv_togglePin {s : TabSessionStore} (id : String) (h : StoreInv s) :
    StoreInv (togglePin s id) := by
  obtain ⟨hnd, hperm, hpin, hact⟩ := h
  unfold togglePin
  cases hl : findTab s id with
  | none => exact ⟨hnd, hperm, hpin, hact⟩
  | some t =>
    simp only
    have hgid : ∀ u : Tab, ((fun u : Tab => if u.id = id then flipPin u else u) u).id = u.id := by
      intro u
      by_cases h1 : u.id = id <;> simp [h1, flipPin]
    have hidkeys : id ∈ tabKeys s := by
      apply lookupTab_isSome_iff.mp
      show (lookupTab s.tabs id).isSome = true
      rw [show lookupTab s.tabs id = some t from hl]
      rfl
    have hidmem : id ∈ s.sessionOrder := hperm.mem_iff.mpr hidkeys
    have hordnd : s.sessionOrder.Nodup := (hperm.nodup_iff).mpr hnd
    have hanid : ∀ a ∈ removeId s.sessionOrder id, a ≠ id := by
      intro a ha hcontr
      exact not_mem_removeId hidmem hordnd (hcontr ▸ ha)
    have hpineq : ∀ a, a ≠ id →
        isPinnedId (s.tabs.map (fun u => if u.id = id then flipPin u else u)) a
          = isPinnedId s.tabs a := by
      intro a hne
      cases hla : lookupTab s.tabs a with
      | none =>
        rw [isPinnedId_of_none (by rw [lookupTab_map hgid, hla]; rfl), isPinnedId_of_none hla]
      | some u =>
        have huid : u.id = a := lookupTab_id hla
        rw [isPinnedId_of_lookup (by rw [lookupTab_map hgid, hla]; rfl),
          isPinnedId_of_lookup hla]
        show (if u.id = id then flipPin u else u).isPinned = u.isPinned
        rw [if_neg (by rw [huid]; exact hne)]
    have hkeys : ((s.tabs.map (fun u => if u.id = id then flipPin u else u)).map Tab.id)
        = s.tabs.map Tab.id := keys_map_preserving hgid s.tabs
    have hle : countIf (fun a => isPinnedId
          (s.tabs.map (fun u => if u.id = id then flipPin u else u)) a)
          (removeId s.sessionOrder id)
        ≤ (removeId s.sessionOrder id).length := countIf_le_length _ _
    have hrestsorted : PinSorted
        (fun a => isPinnedId (s.tabs.map (fun u => if u.id = id then flipPin u else u)) a)
        (removeId s.sessionOrder id) := by
      refine pinSorted_congr (pinSorted_sublist (removeId_sublist _ _) hpin) ?_
      intro a ha
      exact (hpineq a (hanid a ha)).symm
    refine ⟨?_, ?_, ?_, ?_, ?_⟩
    · show ((s.tabs.map _).map Tab.id).Nodup
      rw [hkeys]
      exact hnd
    · show (insertAt _ id (removeId s.sessionOrder id)).Perm ((s.tabs.map _).map Tab.id)
      rw [hkeys]
      refine ((perm_insertAt id _ _ hle).trans ?_).trans hperm
      exact (perm_cons_removeId hidmem).symm
    · show PinSorted _ (insertAt _ id (removeId s.sessionOrder id))
      cases hpid : isPinnedId (s.tabs.map (fun u => if u.id = id then flipPin u else u)) id with
      | true => exact pinSorted_insertAt_true hpid hrestsorted (Nat.le_refl _)
      | false => exact pinSorted_insertAt_false hpid hrestsorted (Nat.le_refl _)
    · constructor
      · intro hnone
        have := hact.1.mp hnone
        rw [this]
        rfl
      · intro hempty
        apply hact.1.mpr
        have : s.tabs.map (fun u => if u.id = id then flipPin u else u) = [] := hempty
        cases hcase : s.tabs with
        | nil => rfl
        | cons u r => rw [hcase] at this; simp at this
    · intro a ha
      have h2 := hact.2 a ha
      show (lookupTab (s.tabs.map _) a).isSome = true
      rw [lookupTab_map hgid]
      unfold hasTab at h2
      cases hla : lookupTab s.tabs a with
      | none => rw [hla] at h2; cases h2
      | some u => rfl

theorem getD_mem : ∀ (l : List String) (n : Nat) (d : String), n < l.length → l.getD n d ∈ l := by
  intro l
  induction l with
  | nil => intro n d h; simp at h
  | cons a t ih =>
    intro n d h
    cases n with
    | zero => simp [List.getD]
    | succ n =>
      have := ih n d (by simpa using h)
      simp only [List.getD] at this ⊢
      simp only [List.get?_cons_succ]
      exact List.mem_cons_of_mem a this

theorem storeInv_reorder {s : TabSessionStore} (id : String) (target : Nat)
    (h : StoreInv s) : StoreInv (reorder s id target) := by
  obtain ⟨hnd, hperm, hpin, hact⟩ := h
  unfold reorder
  cases hl : findTab s id with
  | none => exact ⟨hnd, hperm, hpin, hact⟩
  | some t =>
    simp only
    have hidkeys : id ∈ tabKeys s := by
      apply lookupTab_isSome_iff.mp
      show (lookupTab s.tabs id).isSome = true
      rw [show lookupTab s.tabs id = some t from hl]
      rfl
    have hidmem : id ∈ s.sessionOrder := hperm.mem_iff.mpr hidkeys
    have hpid : isPinnedId s.tabs id = t.isPinned := isPinnedId_of_lookup hl
    have hp : pinBoundary s
        = countIf (fun a => isPinnedId s.tabs a) s.sessionOrder :=
      pinSorted_takeWhile_length hpin
    have hlen : (removeId s.sessionOrder id).length + 1 = s.sessionOrder.length :=
      length_removeId hidmem
    have hrle : countIf (fun a => isPinnedId s.tabs a) (removeId s.sessionOrder id)
        ≤ (removeId s.sessionOrder id).length :=
      countIf_le_length (fun a => isPinnedId s.tabs a) (removeId s.sessionOrder id)
    have hrestsorted : PinSorted (fun a => isPinnedId s.tabs a) (removeId s.sessionOrder id) :=
      pinSorted_sublist (removeId_sublist _ _) hpin
    have hmoved : target ≤ (removeId s.sessionOrder id).length →
        PinSorted (fun a => isPinnedId s.tabs a)
          (insertAt target id (removeId s.sessionOrder id)) →
        StoreInv ⟨s.tabs, insertAt target id (removeId s.sessionOrder id), s.activeTabId⟩ := by
      intro hle hsorted
      refine ⟨hnd, ?_, hsorted, hact⟩
      refine ((perm_insertAt id _ _ hle).trans ?_).trans hperm
      exact (perm_cons_removeId hidmem).symm
    by_cases hpin_t : t.isPinned = true
    · rw [if_pos hpin_t]
      have hfid : isPinnedId s.tabs id = true := by rw [hpid, hpin_t]
      have hcnt1 : countIf (fun a => isPinnedId s.tabs a) s.sessionOrder
          = 1 + countIf (fun a => isPinnedId s.tabs a) (removeId s.sessionOrder id) := by
        rw [perm_countIf _ (perm_cons_removeId hidmem)]
        simp [countIf, hfid]
      by_cases htar : target < pinBoundary s
      · rw [if_pos htar]
        apply hmoved (by omega)
        refine pinSorted_insertAt_true hfid hrestsorted ?_
        show target ≤ countIf (fun a => isPinnedId s.tabs a) (removeId s.sessionOrder id)
        omega
      · rw [if_neg htar]
        exact ⟨hnd, hperm, hpin, hact⟩
    · rw [if_neg hpin_t]
      have hfid : isPinnedId s.tabs id = false := by
        rw [hpid]
        revert hpin_t
        cases t.isPinned <;> simp
      have hcnt0 : countIf (fun a => isPinnedId s.tabs a) s.sessionOrder
          = countIf (fun a => isPinnedId s.tabs a) (removeId s.sessionOrder id) := by
        rw [perm_countIf _ (perm_cons_removeId hidmem)]
        simp [countIf, hfid]
      by_cases htar : pinBoundary s ≤ target ∧ target < s.sessionOrder.length
      · rw [if_pos htar]
        obtain ⟨htar1, htar2⟩ := htar
        apply hmoved (by omega)
        refine pinSorted_insertAt_false hfid hrestsorted ?_
        show countIf (fun a => isPinnedId s.tabs a) (removeId s.sessionOrder id) ≤ target
        omega
      · rw [if_neg htar]
        exact ⟨hnd, hperm, hpin, hact⟩

theorem storeInv_closeTab {s : TabSessionStore} (id : String) (h : StoreInv s) :
    StoreInv (closeTab s id) := by
  obtain ⟨hnd, hperm, hpin, hact⟩ := h
  unfold closeTab
  cases hl : findTab s id with
  | none => exact ⟨hnd, hperm, hpin, hact⟩
  | some t =>
    simp only
    by_cases hpin_t : t.isPinned = true
    · rw [if_pos hpin_t]
      exact ⟨hnd, hperm, hpin, hact⟩
    · rw [if_neg hpin_t]
      have hidkeys : id ∈ tabKeys s := by
        apply lookupTab_isSome_iff.mp
        show (lookupTab s.tabs id).isSome = true
        rw [show lookupTab s.tabs id = some t from hl]
        rfl
      have hidmem : id ∈ s.sessionOrder := hperm.mem_iff.mpr hidkeys
      have hordnd : s.sessionOrder.Nodup := (hperm.nodup_iff).mpr hnd
      have hanid : ∀ a ∈ removeId s.sessionOrder id, a ≠ id := by
        intro a ha hcontr
        exact not_mem_removeId hidmem hordnd (hcontr ▸ ha)
      have hkeysf : ((s.tabs.filter (fun u => u.id ≠ id)).map Tab.id)
          = (s.tabs.map Tab.id).filter (fun x => x ≠ id) := keys_filter_ne s.tabs id
      have hperm2 : (removeId s.sessionOrder id).Perm
          ((s.tabs.filter (fun u => u.id ≠ id)).map Tab.id) := by
        rw [hkeysf, removeId_eq_filter hordnd]
        exact hperm.filter _
      have hpin2 : PinSorted
          (fun a => isPinnedId (s.tabs.filter (fun u => u.id ≠ id)) a)
          (removeId s.sessionOrder id) := by
        refine pinSorted_congr (pinSorted_sublist (removeId_sublist _ _) hpin) ?_
        intro a ha
        exact (isPinnedId_congr (lookupTab_filter_ne (hanid a ha))).symm
      refine ⟨?_, hperm2, hpin2, ?_⟩
      · show ((s.tabs.filter (fun u => u.id ≠ id)).map Tab.id).Nodup
        rw [hkeysf]
        exact hnd.filter _
      · by_cases hae : s.activeTabId = some id
        · rw [if_pos hae]
          by_cases hre : removeId s.sessionOrder id = []
          · rw [if_pos hre]
            have hkeysnil : ((s.tabs.filter (fun u => u.id ≠ id)).map Tab.id) = [] := by
              have := hperm2.symm
              rw [hre] at this
              exact this.eq_nil
            constructor
            · constructor
              · intro _
                cases hcase : s.tabs.filter (fun u => u.id ≠ id) with
                | nil => rfl
                | cons u r => rw [hcase] at hkeysnil; simp at hkeysnil
              · intro _
                rfl
            · intro a ha
              cases ha
          · rw [if_neg hre]
            have hlen0 : (removeId s.sessionOrder id).length ≠ 0 := by
              intro h0
              exact hre (List.length_eq_zero.mp h0)
            have hlt : min (s.sessionOrder.indexOf id)
                ((removeId s.sessionOrder id).length - 1)
                < (removeId s.sessionOrder id).length := by omega
            have hmem : (removeId s.sessionOrder id).getD
                (min (s.sessionOrder.indexOf id)
                  ((removeId s.sessionOrder id).length - 1)) ""
                ∈ removeId s.sessionOrder id := getD_mem _ _ _ hlt
            have hmemk := hperm2.mem_iff.mp hmem
            constructor
            · constructor
              · intro hc
                cases hc
              · intro hempty
                exfalso
                have hempty2 : s.tabs.filter (fun u => u.id ≠ id) = [] := hempty
                rw [hempty2] at hmemk
                simp at hmemk
            · intro a ha
              have haeq : (removeId s.sessionOrder id).getD
                  (min (s.sessionOrder.indexOf id)
                    ((removeId s.sessionOrder id).length - 1)) "" = a := by
                simpa using ha
              apply lookupTab_isSome_iff.mpr
              rw [← haeq]
              exact hmemk
        · rw [if_neg hae]
          cases hao : s.activeTabId with
          | none =>
            exfalso
            have hempty := hact.1.mp hao
            rw [show findTab s id = lookupTab s.tabs id from rfl, hempty] at hl
            simp [lookupTab, List.find?] at hl
          | some a =>
            have hane : a ≠ id := by
              intro hcontr
              exact hae (by rw [hao, hcontr])
            have hmemk : a ∈ tabKeys s := by
              apply lookupTab_isSome_iff.mp
              exact hact.2 a hao
            have hmemf : a ∈ ((s.tabs.filter (fun u => u.id ≠ id)).map Tab.id) := by
              rw [hkeysf]
              apply List.mem_filter.mpr
              exact ⟨hmemk, by simp [hane]⟩
            constructor
            · constructor
              · intro hc
                cases hc
              · intro hempty
                exfalso
                have hempty2 : s.tabs.filter (fun u => u.id ≠ id) = [] := hempty
                rw [hempty2] at hmemf
                simp at hmemf
            · intro b hb
              have hba : a = b := by simpa using hb
              subst hba
              apply lookupTab_isSome_iff.mpr
              exact hmemf

/-! ### The master invariant theorem and reachable demo states -/

theorem storeInv_of_reachable {s : TabSessionStore} (h : Reachable s) : StoreInv s := by
  induction h with
  | init => exact storeInv_init
  | step _ hs ih =>
    cases hs with
    | create ht hf => exact storeInv_createTab ih hf
    | close id => exact storeInv_closeTab id ih
    | switch id => exact storeInv_switchTo id ih
    | update ht => exact storeInv_updateFromHost ht ih
    | toggle id => exact storeInv_togglePin id ih
    | move id n => exact storeInv_reorder id n ih

theorem reachable_demoABC : Reachable demoABC :=
  Reachable.step
    (Reachable.step
      (Reachable.step Reachable.init (Step.create initStore (demoHost "A") (by decide)))
      (Step.create (createTab initStore (demoHost "A")) (demoHost "B") (by decide)))
    (Step.create (createTab (createTab initStore (demoHost "A")) (demoHost "B"))
      (demoHost "C") (by decide))

theorem reachable_demoPinA : Reachable demoPinA :=
  Reachable.step reachable_demoABC (Step.toggle demoABC "A")

/-! ### Claim theorems -/

/-- C1: for every state of TabSessionStore reachable by any sequence of its
operations from the initial empty state, `sessionOrder` is a permutation of
the tab-set keys, and the pinned tabs occupy a contiguous prefix of
`sessionOrder` (the order is the pinned entries followed by the unpinned
entries, each in order). -/
theorem reachable_order_invariant (s : TabSessionStore) (h : Reachable s) :
    s.sessionOrder.Perm (tabKeys s) ∧
    s.sessionOrder = s.sessionOrder.filter (fun a => isPinnedId s.tabs a)
      ++ s.sessionOrder.filter (fun a => !(isPinnedId s.tabs a)) := by
  obtain ⟨_, hperm, hpin, _⟩ := storeInv_of_reachable h
  exact ⟨hperm, pinSorted_filter_decomp hpin⟩

/-- Witness for C1 at the reachable three-tab state with A pinned. -/
theorem reachable_order_invariant_witness :
    Reachable demoPinA ∧
    (demoPinA.sessionOrder.Perm (tabKeys demoPinA) ∧
     demoPinA.sessionOrder = demoPinA.sessionOrder.filter (fun a => isPinnedId demoPinA.tabs a)
       ++ demoPinA.sessionOrder.filter (fun a => !(isPinnedId demoPinA.tabs a))) :=
  ⟨reachable_demoPinA, reachable_order_invariant demoPinA reachable_demoPinA⟩

/-- C2: for every reachable state, the active selection is `none` exactly
when the tab set is empty, and otherwise names a key of the tab set. -/
theorem active_selection_invariant (s : TabSessionStore) (h : Reachable s) :
    (s.activeTabId = none ↔ s.tabs = []) ∧
    ∀ a, s.activeTabId = some a → a ∈ tabKeys s := by
  obtain ⟨_, _, _, hact⟩ := storeInv_of_reachable h
  refine ⟨hact.1, ?_⟩
  intro a ha
  exact lookupTab_isSome_iff.mp (hact.2 a ha)

/-- Witness for C2 at the reachable three-tab state (C is active). -/
theorem active_selection_invariant_witness :
    Reachable demoABC ∧ demoABC.activeTabId = some "C" ∧ "C" ∈ tabKeys demoABC :=
  ⟨reachable_demoABC, rfl,
   (active_selection_invariant demoABC reachable_demoABC).2 "C" rfl⟩

theorem updateFromHost_idem_general (s : TabSessionStore) (ht : HostTab) :
    updateFromHost (updateFromHost s ht) ht = updateFromHost s ht := by
  cases hh : hasTab s ht.id with
  | true =>
    have hs1 : updateFromHost s ht
        = ⟨s.tabs.map (fun t => if t.id = ht.id then mergeTab t ht else t),
           s.sessionOrder, s.activeTabId⟩ := by
      unfold updateFromHost
      rw [if_pos (by simp [hh])]
    have hgid : ∀ t : Tab, ((fun t : Tab => if t.id = ht.id then mergeTab t ht else t) t).id
        = t.id := by
      intro t
      by_cases h1 : t.id = ht.id <;> simp [h1, mergeTab]
    have hh2 : hasTab (updateFromHost s ht) ht.id = true := by
      rw [hs1]
      show (lookupTab (s.tabs.map _) ht.id).isSome = true
      rw [lookupTab_map hgid]
      unfold hasTab at hh
      cases hl : lookupTab s.tabs ht.id with
      | none => rw [hl] at hh; cases hh
      | some u => rfl
    have hmaps : (s.tabs.map (fun t => if t.id = ht.id then mergeTab t ht else t)).map
        (fun t => if t.id = ht.id then mergeTab t ht else t)
        = s.tabs.map (fun t => if t.id = ht.id then mergeTab t ht else t) := by
      rw [List.map_map]
      apply List.map_congr_left
      intro t _
      simp only [Function.comp_apply]
      by_cases h1 : t.id = ht.id
      · rw [if_pos h1,
          if_pos (show (mergeTab t ht).id = ht.id from by
            rw [show (mergeTab t ht).id = t.id from rfl, h1])]
        rfl
      · rw [if_neg h1, if_neg h1]
    conv_lhs => rw [updateFromHost]
    rw [if_pos (by simp [hh2]), hs1]
    show (⟨(s.tabs.map (fun t => if t.id = ht.id then mergeTab t ht else t)).map
        (fun t => if t.id = ht.id then mergeTab t ht else t),
        s.sessionOrder, s.activeTabId⟩ : TabSessionStore)
      = ⟨s.tabs.map (fun t => if t.id = ht.id then mergeTab t ht else t),
        s.sessionOrder, s.activeTabId⟩
    rw [hmaps]
  | false =>
    have hs1 : updateFromHost s ht = createTab s ht := by
      unfold updateFromHost
      rw [if_neg (by simp [hh])]
    have hnone : lookupTab s.tabs ht.id = none := hasTab_of_none hh
    have hsingle : lookupTab [ht.toTab] ht.id = some ht.toTab := by
      simp [lookupTab, List.find?, HostTab.toTab]
    have hh2 : hasTab (updateFromHost s ht) ht.id = true := by
      rw [hs1]
      show (lookupTab (s.tabs ++ [ht.toTab]) ht.id).isSome = true
      rw [lookupTab_append_of_none hnone, hsingle]
      rfl
    have hall : ∀ t ∈ s.tabs, ¬(t.id = ht.id) := by
      intro t htmem
      have := List.find?_eq_none.mp (show s.tabs.find? (fun t => t.id = ht.id) = none from hnone) t htmem
      simpa using this
    have h1 : s.tabs.map (fun t => if t.id = ht.id then mergeTab t ht else t) = s.tabs := by
      have := List.map_congr_left
        (show ∀ t ∈ s.tabs, (if t.id = ht.id then mergeTab t ht else t) = id t from by
          intro t htmem
          rw [if_neg (hall t htmem)]
          rfl)
      simpa using this
    have h2 : [ht.toTab].map (fun t => if t.id = ht.id then mergeTab t ht else t) = [ht.toTab] := by
      simp only [List.map_cons, List.map_nil]
      rw [if_pos (show ht.toTab.id = ht.id from rfl)]
      rfl
    conv_lhs => rw [updateFromHost]
    rw [if_pos (by simp [hh2]), hs1]
    show (⟨(s.tabs ++ [ht.toTab]).map (fun t => if t.id = ht.id then mergeTab t ht else t),
        s.sessionOrder ++ [ht.id], some ht.id⟩ : TabSessionStore)
      = ⟨s.tabs ++ [ht.toTab], s.sessionOrder ++ [ht.id], some ht.id⟩
    rw [List.map_append, h1, h2]

/-- C3: `updateFromHost` is idempotent — applying the same host payload
twice to any reachable state yields the same state as applying it once. -/
theorem updateFromHost_idempotent (s : TabSessionStore) (ht : HostTab)
    (_h : Reachable s) :
    updateFromHost (updateFromHost s ht) ht = updateFromHost s ht :=
  updateFromHost_idem_general s ht

/-- Witness for C3 at the reachable three-tab state with a fresh payload. -/
theorem updateFromHost_idempotent_witness :
    Reachable demoABC ∧
    updateFromHost (updateFromHost demoABC (demoHost "D")) (demoHost "D")
      = updateFromHost demoABC (demoHost "D") :=
  ⟨reachable_demoABC,
   updateFromHost_idempotent demoABC (demoHost "D") reachable_demoABC⟩

/-- C4: on every reachable state, a `reorder` whose target index would
carry the tab across the pin boundary (a pinned tab into the unpinned
region, or an unpinned tab into the pinned region) is a silent no-op: the
whole state is returned unchanged, and no error is surfaced (the operation
is total). -/
theorem reorder_pin_boundary_noop (s : TabSessionStore) (id : String) (target : Nat)
    (t : Tab) (_h : Reachable s) (hl : findTab s id = some t)
    (hcross : (t.isPinned = true ∧ pinBoundary s ≤ target
        ∧ target < s.sessionOrder.length)
      ∨ (t.isPinned = false ∧ target < pinBoundary s)) :
    reorder s id target = s := by
  unfold reorder
  rw [hl]
  rcases hcross with ⟨hp, hge, hlt⟩ | ⟨hp, hlt⟩
  · simp only
    rw [if_pos hp, if_neg (by omega)]
  · simp only
    rw [if_neg (by simp [hp]), if_neg (by omega)]

/-- Witness for C4: in the reachable state with pinned A before B and C,
dropping pinned A at index 1 (inside the unpinned region) is a no-op. -/
theorem reorder_pin_boundary_noop_witness :
    Reachable demoPinA ∧ findTab demoPinA "A" = some demoTabA ∧
    demoTabA.isPinned = true ∧ pinBoundary demoPinA ≤ 1 ∧
    1 < demoPinA.sessionOrder.length ∧
    reorder demoPinA "A" 1 = demoPinA :=
  ⟨reachable_demoPinA, by decide, rfl, by decide, by decide,
   reorder_pin_boundary_noop demoPinA "A" 1 demoTabA reachable_demoPinA (by decide)
     (Or.inl ⟨rfl, by decide, by decide⟩)⟩

/-- C5: on every reachable state, `togglePin` re-threads the toggled tab to
the pin boundary — the new order is the still-pinned block, then the tab,
then the unpinned block (so a newly pinned tab ends the pinned prefix and a
newly unpinned tab starts the unpinned block), the relative order of all
other tabs is preserved, the tab's pin flag is flipped; in particular
pinning B in the unpinned order [A, B, C] yields [B, A, C]. -/
theorem togglePin_boundary_move :
    (∀ (s : TabSessionStore) (id : String) (t : Tab), Reachable s →
      findTab s id = some t →
        (togglePin s id).sessionOrder = pinBlock s id ++ id :: unpinBlock s id
        ∧ removeId s.sessionOrder id = pinBlock s id ++ unpinBlock s id
        ∧ (∀ a ∈ pinBlock s id, isPinnedId s.tabs a = true)
        ∧ (∀ a ∈ unpinBlock s id, isPinnedId s.tabs a = false)
        ∧ isPinnedId (togglePin s id).tabs id = !t.isPinned)
    ∧ (togglePin demoABC "B").sessionOrder = ["B", "A", "C"] := by
  constructor
  · intro s id t hreach hl
    obtain ⟨hnd, hperm, hpin, hact⟩ := storeInv_of_reachable hreach
    have hgid : ∀ u : Tab, ((fun u : Tab => if u.id = id then flipPin u else u) u).id = u.id := by
      intro u
      by_cases h1 : u.id = id <;> simp [h1, flipPin]
    have hidkeys : id ∈ tabKeys s := by
      apply lookupTab_isSome_iff.mp
      show (lookupTab s.tabs id).isSome = true
      rw [show lookupTab s.tabs id = some t from hl]
      rfl
    have hidmem : id ∈ s.sessionOrder := hperm.mem_iff.mpr hidkeys
    have hordnd : s.sessionOrder.Nodup := (hperm.nodup_iff).mpr hnd
    have hanid : ∀ a ∈ removeId s.sessionOrder id, a ≠ id := by
      intro a ha hcontr
      exact not_mem_removeId hidmem hordnd (hcontr ▸ ha)
    have hpineq : ∀ a, a ≠ id →
        isPinnedId (s.tabs.map (fun u => if u.id = id then flipPin u else u)) a
          = isPinnedId s.tabs a := by
      intro a hne
      cases hla : lookupTab s.tabs a with
      | none =>
        rw [isPinnedId_of_none (by rw [lookupTab_map hgid, hla]; rfl), isPinnedId_of_none hla]
      | some u =>
        have huid : u.id = a := lookupTab_id hla
        rw [isPinnedId_of_lookup (by rw [lookupTab_map hgid, hla]; rfl),
          isPinnedId_of_lookup hla]
        show (if u.id = id then flipPin u else u).isPinned = u.isPinned
        rw [if_neg (by rw [huid]; exact hne)]
    have hrestsorted : PinSorted (fun a => isPinnedId s.tabs a) (removeId s.sessionOrder id) :=
      pinSorted_sublist (removeId_sublist _ _) hpin
    have hsplit : removeId s.sessionOrder id = pinBlock s id ++ unpinBlock s id :=
      (List.takeWhile_append_dropWhile _ _).symm
    have hcount : countIf
        (fun a => isPinnedId (s.tabs.map (fun u => if u.id = id then flipPin u else u)) a)
        (removeId s.sessionOrder id)
        = (pinBlock s id).length := by
      rw [countIf_congr (fun a ha => hpineq a (hanid a ha))]
      exact (pinSorted_takeWhile_length hrestsorted).symm
    have horder : (togglePin s id).sessionOrder
        = pinBlock s id ++ id :: unpinBlock s id := by
      show (match findTab s id with
        | none => s
        | some _ =>
          let newTabs := s.tabs.map (fun u : Tab => if u.id = id then flipPin u else u)
          let rest := removeId s.sessionOrder id
          let k := countIf (fun a => isPinnedId newTabs a) rest
          (⟨newTabs, insertAt k id rest, s.activeTabId⟩ : TabSessionStore)).sessionOrder
        = pinBlock s id ++ id :: unpinBlock s id
      rw [hl]
      show insertAt (countIf
          (fun a => isPinnedId (s.tabs.map (fun u => if u.id = id then flipPin u else u)) a)
          (removeId s.sessionOrder id)) id (removeId s.sessionOrder id)
        = pinBlock s id ++ id :: unpinBlock s id
      rw [hcount]
      conv_lhs => rw [hsplit]
      exact insertAt_append id (pinBlock s id) (unpinBlock s id)
    refine ⟨horder, hsplit, ?_, ?_, ?_⟩
    · intro a ha
      exact List.mem_takeWhile_imp ha
    · intro a ha
      exact pinSorted_dropWhile_false hrestsorted a ha
    · have hlt : lookupTab (togglePin s id).tabs id
          = some (flipPin t) := by
        show lookupTab (match findTab s id with
          | none => s
          | some _ =>
            let newTabs := s.tabs.map (fun u : Tab => if u.id = id then flipPin u else u)
            let rest := removeId s.sessionOrder id
            let k := countIf (fun a => isPinnedId newTabs a) rest
            (⟨newTabs, insertAt k id rest, s.activeTabId⟩ : TabSessionStore)).tabs id
          = some (flipPin t)
        rw [hl]
        show lookupTab (s.tabs.map (fun u => if u.id = id then flipPin u else u)) id
          = some (flipPin t)
        rw [lookupTab_map hgid, show lookupTab s.tabs id = some t from hl]
        show some (if t.id = id then flipPin t else t) = some (flipPin t)
        rw [if_pos (lookupTab_id hl)]
      rw [isPinnedId_of_lookup hlt]
      rfl
  · decide

/-- Witness for C5: pinning B in the reachable state with order [A, B, C]. -/
theorem togglePin_boundary_move_witness :
    Reachable demoABC ∧ findTab demoABC "B" = some demoTabB ∧
    (togglePin demoABC "B").sessionOrder
      = pinBlock demoABC "B" ++ "B" :: unpinBlock demoABC "B" ∧
    isPinnedId (togglePin demoABC "B").tabs "B" = !demoTabB.isPinned :=
  ⟨reachable_demoABC, by decide,
   (togglePin_boundary_move.1 demoABC "B" demoTabB reachable_demoABC (by decide)).1,
   (togglePin_boundary_move.1 demoABC "B" demoTabB reachable_demoABC (by decide)).2.2.2.2⟩

/-- C6: the URL-normalization contract — an input with an explicit
`http://`/`https://` scheme passes through unchanged; `localhost` or a
dotted-quad IPv4 form gets `http://`; an input matching the domain-name
pattern (and not already covered by the IPv4/localhost rule, which the
contract gives priority: a dotted quad also matches `label(.label)+` yet
must get `http://`) gets `https://`; anything else becomes the URL-encoded
search-engine query URL. -/
theorem normalizeUrl_contract (input : String) :
    (startsWithHttp input = true → normalizeUrl input = input)
    ∧ (startsWithHttp input = false → (input = "localhost" ∨ isIPv4 input = true) →
        normalizeUrl input = "http://" ++ input)
    ∧ (startsWithHttp input = false → input ≠ "localhost" → isIPv4 input = false →
        isDomainLike input = true → normalizeUrl input = "https://" ++ input)
    ∧ (startsWithHttp input = false → input ≠ "localhost" → isIPv4 input = false →
        isDomainLike input = false → normalizeUrl input = searchQueryUrl input) := by
  refine ⟨?_, ?_, ?_, ?_⟩
  · intro h1
    unfold normalizeUrl
    rw [if_pos h1]
  · intro h1 h2
    unfold normalizeUrl
    rw [if_neg (by simp [h1]), if_pos ?_]
    rcases h2 with h2 | h2 <;> simp [h2]
  · intro h1 h2 h3 h4
    unfold normalizeUrl
    rw [if_neg (by simp [h1]), if_neg (by simp [h2, h3]), if_pos (by simp [h4])]
  · intro h1 h2 h3 h4
    unfold normalizeUrl
    rw [if_neg (by simp [h1]), if_neg (by simp [h2, h3]), if_neg (by simp [h4])]

/-- Witness for C6 on four concrete inputs, one per contract case. -/
theorem normalizeUrl_contract_witness :
    (startsWithHttp "https://a.b" = true ∧ normalizeUrl "https://a.b" = "https://a.b")
    ∧ (isIPv4 "127.0.0.1" = true ∧ normalizeUrl "127.0.0.1" = "http://127.0.0.1")
    ∧ (isDomainLike "electrobun.dev" = true
        ∧ normalizeUrl "electrobun.dev" = "https://electrobun.dev")
    ∧ (isDomainLike "hello world" = false
        ∧ normalizeUrl "hello world" = searchQueryUrl "hello world") :=
  ⟨⟨by decide, (normalizeUrl_contract "https://a.b").1 (by decide)⟩,
   ⟨by decide, (normalizeUrl_contract "127.0.0.1").2.1 (by decide) (Or.inr (by decide))⟩,
   ⟨by decide, (normalizeUrl_contract "electrobun.dev").2.2.1 (by decide) (by decide)
      (by decide) (by decide)⟩,
   ⟨by decide, (normalizeUrl_contract "hello world").2.2.2 (by decide) (by decide)
      (by decide) (by decide)⟩⟩

/-- The history-URL-only score constant equals one half. -/
theorem halfScore_eq : halfScore = 0.5 := by
  norm_num [halfScore, Rat.mk'_eq_divInt, Rat.divInt_eq_div]

/-- The history-title-match score constant equals three halves. -/
theorem threeHalfScore_eq : threeHalfScore = 1.5 := by
  norm_num [threeHalfScore, Rat.mk'_eq_divInt, Rat.divInt_eq_div]

/-- Two equal-scored title-matching bookmarks come out in insertion order:
the sort is stable as §4.4 requires. -/
theorem rankSuggestions_ties_keep_order :
    rankSuggestions "e" [⟨"b1", "Electrobun", "https://electrobun.dev", 0⟩,
        ⟨"b2", "Example", "https://example.org", 1⟩] []
      = [⟨"Electrobun", "https://electrobun.dev", 2⟩,
         ⟨"Example", "https://example.org", 2⟩] := by
  decide

/-- C7: the query "ele" against the bookmark
{title: Electrobun, url: electrobun.dev} and non-matching history yields
exactly one candidate with score 2; with a history entry whose URL alone
matches, that 0.5-scored candidate is ranked behind the score-2 bookmark. -/
theorem suggestion_ranking_scenario :
    rankSuggestions "ele" [demoBookmark] [⟨"News", "https://news.example", 5⟩]
      = [⟨"Electrobun", "https://electrobun.dev", 2⟩]
    ∧ rankSuggestions "ele" [demoBookmark] [⟨"Other", "https://tele.example", 5⟩]
      = [⟨"Electrobun", "https://electrobun.dev", 2⟩,
         ⟨"Other", "https://tele.example", 0.5⟩] := by
  constructor
  · decide
  · rw [← halfScore_eq]
    decide

/-- C8: `record` suppresses a consecutive duplicate of the head URL — the
log is returned unchanged — and recording the same URL twice in a row from
the empty log leaves exactly one entry. -/
theorem record_duplicate_suppression :
    (∀ (log : HistoryLog) (title url : String) (ts : Nat) (e : HistoryEntry)
      (rest : List HistoryEntry), log.entries = e :: rest → e.url = url →
        log.record title url ts = log)
    ∧ (((HistoryLog.mk []).record "Site" "https://x.com" 1).record
        "Site" "https://x.com" 2).entries.length = 1 := by
  constructor
  · intro log title url ts e rest hent heq
    unfold HistoryLog.record
    rw [hent]
    simp [heq]
  · decide

/-- Witness for C8: a log whose head already holds the URL is unchanged. -/
theorem record_duplicate_suppression_witness :
    (HistoryLog.mk [⟨"Site", "https://x.com", 1⟩]).entries
      = (⟨"Site", "https://x.com", 1⟩ : HistoryEntry) :: [] ∧
    (HistoryEntry.mk "Site" "https://x.com" 1).url = "https://x.com" ∧
    (HistoryLog.mk [⟨"Site", "https://x.com", 1⟩]).record "X" "https://x.com" 9
      = HistoryLog.mk [⟨"Site", "https://x.com", 1⟩] :=
  ⟨rfl, rfl,
   record_duplicate_suppression.1 (HistoryLog.mk [⟨"Site", "https://x.com", 1⟩])
     "X" "https://x.com" 9 ⟨"Site", "https://x.com", 1⟩ [] rfl rfl⟩

/-- C9: `analyzeWithGemini` never propagates an exception — on every
failure path (missing screenshot file, fetch throw, non-OK HTTP response,
response text without a JSON array, or a parse throw) it returns the empty
list. -/
theorem analyzeWithGemini_failure_empty (env : GeminiEnv)
    (h : env.fileExists = false
      ∨ env.fetch = FetchOutcome.throws
      ∨ (∃ st, env.fetch = FetchOutcome.notOk st)
      ∨ (∃ t, env.fetch = FetchOutcome.ok t ∧ jsonArrayMatch (t.getD "[]") = none)
      ∨ (∃ t m e, env.fetch = FetchOutcome.ok t
          ∧ jsonArrayMatch (t.getD "[]") = some m ∧ env.parse m = Except.error e)) :
    analyzeWithGemini env = [] := by
  rcases h with h | h | ⟨st, h⟩ | ⟨t, h, hm⟩ | ⟨t, m, e, h, hm, hp⟩
  · simp [analyzeWithGemini, h]
  · simp [analyzeWithGemini, analyzeTry, h]
  · simp [analyzeWithGemini, analyzeTry, h]
  · simp [analyzeWithGemini, analyzeTry, h, hm]
  · simp [analyzeWithGemini, analyzeTry, h, hm, hp]

/-- Witness for C9: a missing screenshot file yields the empty list. -/
theorem analyzeWithGemini_failure_empty_witness :
    (⟨false, FetchOutcome.throws, fun _ => Except.ok []⟩ : GeminiEnv).fileExists = false ∧
    analyzeWithGemini ⟨false, FetchOutcome.throws, fun _ => Except.ok []⟩ = [] :=
  ⟨rfl, analyzeWithGemini_failure_empty _ (Or.inl rfl)⟩

theorem bumpCounts_sum (acc : Nat × Nat × Nat × Nat) (a : GeminiAnalysis) :
    (bumpCounts acc a).1 + (bumpCounts acc a).2.1 + (bumpCounts acc a).2.2.1
      + (bumpCounts acc a).2.2.2
    = acc.1 + acc.2.1 + acc.2.2.1 + acc.2.2.2 + 1 := by
  by_cases h1 : a.severity = "critical"
  · simp [bumpCounts, h1]
    omega
  · by_cases h2 : a.severity = "major"
    · simp [bumpCounts, h1, h2]
      omega
    · by_cases h3 : a.severity = "minor"
      · simp [bumpCounts, h1, h2, h3]
        omega
      · simp [bumpCounts, h1, h2, h3]
        omega

theorem bumpCounts_info (acc : Nat × Nat × Nat × Nat) (a : GeminiAnalysis) :
    (bumpCounts acc a).2.2.2 = acc.2.2.2 + (if isInfoSeverity a then 1 else 0) := by
  by_cases h1 : a.severity = "critical"
  · simp [bumpCounts, isInfoSeverity, h1]
  · by_cases h2 : a.severity = "major"
    · simp [bumpCounts, isInfoSeverity, h1, h2]
    · by_cases h3 : a.severity = "minor"
      · simp [bumpCounts, isInfoSeverity, h1, h2, h3]
      · simp [bumpCounts, isInfoSeverity, h1, h2, h3]

theorem foldl_bumpCounts_sum (l : List GeminiAnalysis) :
    ∀ acc : Nat × Nat × Nat × Nat,
      (l.foldl bumpCounts acc).1 + (l.foldl bumpCounts acc).2.1
        + (l.foldl bumpCounts acc).2.2.1 + (l.foldl bumpCounts acc).2.2.2
      = acc.1 + acc.2.1 + acc.2.2.1 + acc.2.2.2 + l.length := by
  induction l with
  | nil => intro acc; simp
  | cons a t ih =>
    intro acc
    simp only [List.foldl_cons, List.length_cons]
    rw [ih (bumpCounts acc a), bumpCounts_sum acc a]
    omega

theorem foldl_bumpCounts_info (l : List GeminiAnalysis) :
    ∀ acc : Nat × Nat × Nat × Nat,
      (l.foldl bumpCounts acc).2.2.2 = acc.2.2.2 + countIf isInfoSeverity l := by
  induction l with
  | nil => intro acc; simp [countIf]
  | cons a t ih =>
    intro acc
    simp only [List.foldl_cons, countIf]
    rw [ih (bumpCounts acc a), bumpCounts_info acc a]
    omega

theorem foldl_results_sum (rs : List TestResult) :
    ∀ acc : Nat × Nat × Nat × Nat,
      ((rs.foldl (fun acc r => r.analyses.foldl bumpCounts acc) acc).1
        + (rs.foldl (fun acc r => r.analyses.foldl bumpCounts acc) acc).2.1
        + (rs.foldl (fun acc r => r.analyses.foldl bumpCounts acc) acc).2.2.1
        + (rs.foldl (fun acc r => r.analyses.foldl bumpCounts acc) acc).2.2.2)
      = acc.1 + acc.2.1 + acc.2.2.1 + acc.2.2.2
        + (rs.map (fun r => r.analyses.length)).sum := by
  induction rs with
  | nil => intro acc; simp
  | cons r t ih =>
    intro acc
    simp only [List.foldl_cons, List.map_cons, List.sum_cons]
    rw [ih (r.analyses.foldl bumpCounts acc), foldl_bumpCounts_sum]
    omega

theorem foldl_results_info (rs : List TestResult) :
    ∀ acc : Nat × Nat × Nat × Nat,
      (rs.foldl (fun acc r => r.analyses.foldl bumpCounts acc) acc).2.2.2
      = acc.2.2.2 + (rs.map (fun r => countIf isInfoSeverity r.analyses)).sum := by
  induction rs with
  | nil => intro acc; simp
  | cons r t ih =>
    intro acc
    simp only [List.foldl_cons, List.map_cons, List.sum_cons]
    rw [ih (r.analyses.foldl bumpCounts acc), foldl_bumpCounts_info]
    omega

/-- C10: the "Total issues found" figure of `generateReport` equals the
total number of analyses across all results — every analysis lands in
exactly one severity bucket, any severity other than critical, major or
minor being tallied as info. -/
theorem generateReport_total_issues (results : List TestResult) :
    totalIssues results = (results.map (fun r => r.analyses.length)).sum
    ∧ (severityCounts results).2.2.2
        = (results.map (fun r => countIf isInfoSeverity r.analyses)).sum := by
  constructor
  · unfold totalIssues severityCounts
    rw [foldl_results_sum results (0, 0, 0, 0)]
    simp
  · unfold severityCounts
    rw [foldl_results_info results (0, 0, 0, 0)]
    simp

/-- Witness for C10 on a concrete two-result report with four analyses of
severities critical, minor, info and an unknown string. -/
theorem generateReport_total_issues_witness :
    totalIssues
      [⟨⟨"t1", "d1", "i1"⟩, "p1", 0,
        [⟨"critical", "layout", "x", "y"⟩, ⟨"minor", "visual", "x", "y"⟩]⟩,
       ⟨⟨"t2", "d2", "i2"⟩, "p2", 0,
        [⟨"info", "ux", "x", "y"⟩, ⟨"surprise", "polish", "x", "y"⟩]⟩] = 4 := by
  have h := (generateReport_total_issues
    [⟨⟨"t1", "d1", "i1"⟩, "p1", 0,
      [⟨"critical", "layout", "x", "y"⟩, ⟨"minor", "visual", "x", "y"⟩]⟩,
     ⟨⟨"t2", "d2", "i2"⟩, "p2", 0,
      [⟨"info", "ux", "x", "y"⟩, ⟨"surprise", "polish", "x", "y"⟩]⟩]).1
  rw [h]
  decide
